import Mathlib

/-!
Shallow embedding of `src/data_model/src/metadata.rs` (iroha `Metadata`):
a bounded, path-addressable key-value metadata container.

The Rust `Metadata` wraps a `BTreeMap<Name, Value>`; we model the map as an
association list ordered by key (the `BTreeMap` operations `get`, `insert`,
`remove`, `get_mut`-writeback, `len`, `contains_key` are embedded below as
`mapGet`, `mapInsert`, `mapRemove`, `mapSet`, `List.length`, `mapContains`).
The `&mut self` operations are embedded by explicit state passing: each
returns its Rust result paired with the post-state of the container.
-/

set_option autoImplicit false

namespace IrohaMetadata

/-- The key type `Name` (an already-validated string wrapper in the repo). -/
abbrev Name := String

/-- The polymorphic value type. The repo's `Value` has many variants; this
system treats every non-container variant as an opaque leaf, consumed only
through its recursive size metric (`len`) and its canonical encoded byte
length (`encLen`), so a leaf is embedded as that pair of observables.
`limitedMetadata` is the `Value::LimitedMetadata(Metadata)` variant; since
`Metadata` is a transparent wrapper around its map, the constructor holds
the map directly. -/
inductive Value where
  | leaf (sz : Nat) (encSz : Nat)
  | limitedMetadata (map : List (Name × Value))
  deriving Repr

/-- The map type underlying `Metadata` (`BTreeMap<Name, Value>`). -/
abbrev MapT := List (Name × Value)

/-- `Metadata`: collection of parameters by their names with checked
insertion (`#[serde(transparent)]` wrapper around the map). -/
structure Metadata where
  map : MapT
  deriving Repr

/-- `Limits { max_len, max_entry_byte_size }` (both `u32` in the source;
embedded as `Nat` since only order comparisons are performed). -/
structure Limits where
  max_len : Nat
  max_entry_byte_size : Nat
  deriving Repr

/-- The error cases produced through `eyre!` in the source, one constructor
per distinct message. -/
inductive Err where
  | emptyPath
  | lengthLimit (max : Nat)
  | entrySize (max actual : Nat)
  | missingKey (k : Name)
  | nonContainer (k : Name)
  deriving Repr, DecidableEq

/-- `BTreeMap::get`: look up a key. -/
def mapGet (key : Name) : MapT → Option Value
  | [] => none
  | (k, v) :: rest => if key = k then some v else mapGet key rest

/-- `BTreeMap::contains_key`. -/
def mapContains (key : Name) (m : MapT) : Bool :=
  (mapGet key m).isSome

/-- `BTreeMap::insert` on the key-ordered association list: replaces the
value at an existing key, otherwise inserts at the ordered position. The
key order is `String`'s lexicographic order, expressed on the underlying
character list (definitionally the same order, kernel-computable). -/
def mapInsert (key : Name) (v : Value) : MapT → MapT
  | [] => [(key, v)]
  | (k, v') :: rest =>
    if key.data < k.data then (key, v) :: (k, v') :: rest
    else if key = k then (key, v) :: rest
    else (k, v') :: mapInsert key v rest

/-- Writing through a `BTreeMap::get_mut` borrow: replace the value at an
existing key in place (no change if the key is absent). -/
def mapSet (key : Name) (v : Value) : MapT → MapT
  | [] => []
  | (k, v') :: rest =>
    if key = k then (key, v) :: rest else (k, v') :: mapSet key v rest

/-- `BTreeMap::remove`: the removed value (if any) and the post-state. -/
def mapRemove (key : Name) : MapT → Option Value × MapT
  | [] => (none, [])
  | (k, v) :: rest =>
    if key = k then (some v, rest)
    else
      let r := mapRemove key rest
      (r.1, (k, v) :: r.2)

mutual

/-- Modelled from the spec: the external `Value::len()` recursive size
metric. Leaves carry their own opaque metric; for the container variant the
metric recurses through the container's `nested_len` (the `+ 1` for the
container variant is pinned by the in-repo test expecting `nested_len = 6`
on a three-deep chain). -/
def Value.len : Value → Nat
  | .leaf sz _ => sz
  | .limitedMetadata m => mapNestedLen m + 1

/-- `Metadata::nested_len` on the underlying map:
`self.map.iter().map(|(_, v)| 1 + v.len()).sum()`. -/
def mapNestedLen : MapT → Nat
  | [] => 0
  | (_, v) :: rest => (1 + Value.len v) + mapNestedLen rest

end

/-- `Metadata::nested_len`. -/
def Metadata.nested_len (m : Metadata) : Nat :=
  mapNestedLen m.map

mutual

/-- Modelled from the spec: the canonical (SCALE) encoded byte length of a
`Value`. The spec leaves the exact layout external; we model it
compositionally and deterministically: leaves carry their encoded length,
a container costs one length-prefix byte plus its entries. -/
def Value.encLen : Value → Nat
  | .leaf _ e => e
  | .limitedMetadata m => 1 + mapEncLen m

/-- Modelled from the spec: encoded byte length of a map's entries. -/
def mapEncLen : MapT → Nat
  | [] => 0
  | (k, v) :: rest => (k.length + 1 + Value.encLen v) + mapEncLen rest

end

/-- Modelled from the spec: `(key, value).encode().len()`, the canonical
encoded byte length of an entry. -/
def encodedSize (key : Name) (v : Value) : Nat :=
  (key.length + 1) + v.encLen

/-- `check_size_limits(key, value, limits)`. -/
def check_size_limits (key : Name) (value : Value) (limits : Limits) :
    Except Err Unit :=
  let byte_size := encodedSize key value
  if byte_size > limits.max_entry_byte_size then
    .error (.entrySize limits.max_entry_byte_size byte_size)
  else
    .ok ()

/-- `Metadata::get`. -/
def Metadata.get (m : Metadata) (key : Name) : Option Value :=
  mapGet key m.map

/-- `Metadata::remove`: removed value and post-state. -/
def Metadata.remove (m : Metadata) (key : Name) : Option Value × Metadata :=
  let r := mapRemove key m.map
  (r.1, ⟨r.2⟩)

/-- `Metadata::insert_with_limits`: result (`Ok(previous value)` or an
error) paired with the post-state of the container. -/
def Metadata.insert_with_limits (m : Metadata) (key : Name) (value : Value)
    (limits : Limits) : Except Err (Option Value) × Metadata :=
  if limits.max_len ≤ m.map.length ∧ mapContains key m.map = false then
    (.error (.lengthLimit limits.max_len), m)
  else
    match check_size_limits key value limits with
    | .error e => (.error e, m)
    | .ok _ => (.ok (mapGet key m.map), ⟨mapInsert key value m.map⟩)

/-- The traversal loop of `nested_get`: `segs` is `path` with its last
element removed, `key` the last element. -/
def nestedGetGo (map : MapT) (segs : List Name) (key : Name) : Option Value :=
  match segs with
  | [] => mapGet key map
  | k :: ks =>
    match mapGet k map with
    | some (.limitedMetadata data) => nestedGetGo data ks key
    | _ => none

/-- `Metadata::nested_get`. -/
def Metadata.nested_get (m : Metadata) (path : List Name) : Option Value :=
  match path.getLast? with
  | none => none
  | some key => nestedGetGo m.map path.dropLast key

/-- The traversal loop of `nested_remove`, with the `&mut` writes embedded
as writebacks through `mapSet`. -/
def nestedRemoveGo (map : MapT) (segs : List Name) (key : Name) :
    Option Value × MapT :=
  match segs with
  | [] => mapRemove key map
  | k :: ks =>
    match mapGet k map with
    | some (.limitedMetadata data) =>
      let r := nestedRemoveGo data ks key
      (r.1, mapSet k (.limitedMetadata r.2) map)
    | _ => (none, map)

/-- `Metadata::nested_remove`: removed value and post-state. -/
def Metadata.nested_remove (m : Metadata) (path : List Name) :
    Option Value × Metadata :=
  match path.getLast? with
  | none => (none, m)
  | some key =>
    let r := nestedRemoveGo m.map path.dropLast key
    (r.1, ⟨r.2⟩)

/-- The traversal-and-insert loop of `nested_insert_with_limits` (after its
root length guard and empty-path check): errors on a missing or
non-container intermediate segment, then at the terminal container runs
`check_size_limits` followed by `insert_with_limits`. -/
def nestedInsertGo (map : MapT) (segs : List Name) (key : Name)
    (value : Value) (limits : Limits) : Except Err (Option Value) × MapT :=
  match segs with
  | [] =>
    match check_size_limits key value limits with
    | .error e => (.error e, map)
    | .ok _ =>
      let r := Metadata.insert_with_limits ⟨map⟩ key value limits
      (r.1, r.2.map)
  | k :: ks =>
    match mapGet k map with
    | none => (.error (.missingKey k), map)
    | some (.leaf _ _) => (.error (.nonContainer k), map)
    | some (.limitedMetadata data) =>
      let r := nestedInsertGo data ks key value limits
      (r.1, mapSet k (.limitedMetadata r.2) map)

/-- `Metadata::nested_insert_with_limits`: first the root-scoped length
guard (`self.map.len() >= limits.max_len`), then the empty-path check
(`path.last().ok_or(..)`), then the traversal loop. Result paired with the
post-state. -/
def Metadata.nested_insert_with_limits (m : Metadata) (path : List Name)
    (value : Value) (limits : Limits) : Except Err (Option Value) × Metadata :=
  if limits.max_len ≤ m.map.length then
    (.error (.lengthLimit limits.max_len), m)
  else
    match path.getLast? with
    | none => (.error .emptyPath, m)
    | some key =>
      let r := nestedInsertGo m.map path.dropLast key value limits
      (r.1, ⟨r.2⟩)

/-! ### Spec-side predicates -/

/-- `key` does not occur among the keys of the map (one layer). -/
def keyAbsent (key : Name) : MapT → Bool
  | [] => true
  | (k, _) :: rest => !(key = k : Bool) && keyAbsent key rest

mutual

/-- Well-formedness of a `Value`: every container layer reachable from it
has pairwise-distinct keys (spec invariant I1, guaranteed for real states
by `BTreeMap`). -/
def Value.wf : Value → Bool
  | .leaf _ _ => true
  | .limitedMetadata m => mapWF m

/-- Well-formedness of a map: distinct keys at this layer, recursively
well-formed values. -/
def mapWF : MapT → Bool
  | [] => true
  | (k, v) :: rest => keyAbsent k rest && Value.wf v && mapWF rest

end

/-- Resolve the non-terminal path segments: starting from `map`, follow
each segment through a `limitedMetadata` value; `none` when a segment is
absent or resolves to a non-container value (the claims' notion of a
malformed path). -/
def navigate : MapT → List Name → Option MapT
  | map, [] => some map
  | map, k :: ks =>
    match mapGet k map with
    | some (.limitedMetadata data) => navigate data ks
    | _ => none

/-- The claims' characterisation of successful path resolution: the path is
non-empty, every non-last segment resolves to a `limitedMetadata` value,
and the last segment is present in the terminal container with value `v`. -/
inductive ResolvesTo : MapT → List Name → Value → Prop where
  | here {map : MapT} {key : Name} {v : Value} :
      mapGet key map = some v → ResolvesTo map [key] v
  | there {map : MapT} {k : Name} {data : MapT} {ps : List Name} {v : Value} :
      mapGet k map = some (.limitedMetadata data) →
      ResolvesTo data ps v → ResolvesTo map (k :: ps) v

/-- The claims' frame condition for a successful `nested_remove` along
non-terminal segments `segs` ending at `key`: at each layer along the path
every other entry is unchanged and the entry count is preserved, the
next container on the path is still present (never pruned), and at the
terminal layer only `key` is gone with every other entry unchanged. -/
def RemovedAlong : MapT → MapT → List Name → Name → Prop
  | pre, post, [], key =>
      mapGet key post = none ∧
      post.length + 1 = pre.length ∧
      ∀ k2, k2 ≠ key → mapGet k2 post = mapGet k2 pre
  | pre, post, k :: ks, key =>
      post.length = pre.length ∧
      (∀ k2, k2 ≠ k → mapGet k2 post = mapGet k2 pre) ∧
      ∃ data data2,
        mapGet k pre = some (.limitedMetadata data) ∧
        mapGet k post = some (.limitedMetadata data2) ∧
        RemovedAlong data data2 ks key

/-! ### Helper lemmas about the map operations -/

theorem mapGet_mapInsert_self (key : Name) (v : Value) (m : MapT) :
    mapGet key (mapInsert key v m) = some v := by
  induction m with
  | nil => simp [mapInsert, mapGet]
  | cons e rest ih =>
    obtain ⟨k, v'⟩ := e
    simp only [mapInsert]
    by_cases hlt : key.data < k.data
    · simp [hlt, mapGet]
    · by_cases heq : key = k
      · simp [hlt, heq, mapGet]
      · simp [hlt, heq, mapGet, ih]

theorem mapSet_self {key : Name} {v : Value} {m : MapT}
    (h : mapGet key m = some v) : mapSet key v m = m := by
  induction m with
  | nil => simp [mapGet] at h
  | cons e rest ih =>
    obtain ⟨k, v'⟩ := e
    simp only [mapGet] at h
    by_cases heq : key = k
    · simp only [heq, if_pos rfl] at h
      obtain rfl := Option.some_injective _ h
      simp [mapSet, heq]
    · simp only [if_neg heq] at h
      simp [mapSet, heq, ih h]

theorem mapGet_mapSet_self {key : Name} {w : Value} {m : MapT} (v : Value)
    (h : mapGet key m = some w) :
    mapGet key (mapSet key v m) = some v := by
  induction m with
  | nil => simp [mapGet] at h
  | cons e rest ih =>
    obtain ⟨k, v'⟩ := e
    simp only [mapGet] at h
    by_cases heq : key = k
    · simp [mapSet, heq, mapGet]
    · simp only [if_neg heq] at h
      simp [mapSet, heq, mapGet, ih h]

theorem mapGet_mapSet_ne {key k2 : Name} (v : Value) (m : MapT)
    (h : k2 ≠ key) : mapGet k2 (mapSet key v m) = mapGet k2 m := by
  induction m with
  | nil => simp [mapSet]
  | cons e rest ih =>
    obtain ⟨k, v'⟩ := e
    simp only [mapSet]
    by_cases heq : key = k
    · subst heq
      simp [mapGet, if_neg h]
    · simp [if_neg heq, mapGet, ih]

theorem mapSet_length (key : Name) (v : Value) (m : MapT) :
    (mapSet key v m).length = m.length := by
  induction m with
  | nil => simp [mapSet]
  | cons e rest ih =>
    obtain ⟨k, v'⟩ := e
    simp only [mapSet]
    by_cases heq : key = k
    · simp [heq]
    · simp [heq, ih]

theorem mapRemove_absent {key : Name} {m : MapT}
    (h : mapGet key m = none) : mapRemove key m = (none, m) := by
  induction m with
  | nil => simp [mapRemove]
  | cons e rest ih =>
    obtain ⟨k, v⟩ := e
    simp only [mapGet] at h
    by_cases heq : key = k
    · simp [heq] at h
    · simp only [if_neg heq] at h
      simp [mapRemove, heq, ih h]

theorem mapRemove_length {key : Name} {m : MapT} {v : Value}
    (h : (mapRemove key m).1 = some v) :
    (mapRemove key m).2.length + 1 = m.length := by
  induction m with
  | nil => simp [mapRemove] at h
  | cons e rest ih =>
    obtain ⟨k, v'⟩ := e
    simp only [mapRemove] at h ⊢
    by_cases heq : key = k
    · simp [heq]
    · simp only [if_neg heq] at h ⊢
      simp only [List.length_cons]
      have := ih h
      omega

theorem keyAbsent_get_none {key : Name} {m : MapT}
    (h : keyAbsent key m = true) : mapGet key m = none := by
  induction m with
  | nil => rfl
  | cons e rest ih =>
    obtain ⟨k, v⟩ := e
    simp only [keyAbsent, Bool.and_eq_true] at h
    simp only [mapGet]
    by_cases heq : key = k
    · simp [heq] at h
    · simp [heq, ih h.2]

theorem wf_of_get {map : MapT} {k : Name} {v : Value}
    (hwf : mapWF map = true) (h : mapGet k map = some v) :
    Value.wf v = true := by
  induction map with
  | nil => simp [mapGet] at h
  | cons e rest ih =>
    obtain ⟨k2, v2⟩ := e
    simp only [mapWF, Bool.and_eq_true] at hwf
    simp only [mapGet] at h
    by_cases heq : k = k2
    · simp only [if_pos heq] at h
      obtain rfl := Option.some_injective _ h
      exact hwf.1.2
    · simp only [if_neg heq] at h
      exact ih hwf.2 h

theorem mapRemove_get_self {key : Name} {m : MapT} (hwf : mapWF m = true) :
    mapGet key (mapRemove key m).2 = none := by
  induction m with
  | nil => rfl
  | cons e rest ih =>
    obtain ⟨k, v⟩ := e
    simp only [mapWF, Bool.and_eq_true] at hwf
    simp only [mapRemove]
    by_cases heq : key = k
    · subst heq
      simp only [if_pos rfl]
      exact keyAbsent_get_none hwf.1.1
    · simp [if_neg heq, mapGet, heq, ih hwf.2]

theorem mapRemove_get_ne {key k2 : Name} (m : MapT) (h : k2 ≠ key) :
    mapGet k2 (mapRemove key m).2 = mapGet k2 m := by
  induction m with
  | nil => rfl
  | cons e rest ih =>
    obtain ⟨k, v⟩ := e
    simp only [mapRemove]
    by_cases heq : key = k
    · subst heq
      simp [mapGet, if_neg h]
    · simp [if_neg heq, mapGet, ih]

/-! ### Correspondence between the nested operations and path resolution -/

theorem nestedGetGo_eq_navigate (map : MapT) (segs : List Name) (key : Name) :
    nestedGetGo map segs key =
      (navigate map segs).bind fun m2 => mapGet key m2 := by
  induction segs generalizing map with
  | nil => rfl
  | cons k ks ih =>
    cases hget : mapGet k map with
    | none => simp [nestedGetGo, navigate, hget]
    | some w =>
      cases w with
      | leaf sz e => simp [nestedGetGo, navigate, hget]
      | limitedMetadata data => simp [nestedGetGo, navigate, hget, ih]

theorem nestedRemoveGo_none {map : MapT} {segs : List Name} {key : Name}
    (h : ((navigate map segs).bind fun m2 => mapGet key m2) = none) :
    nestedRemoveGo map segs key = (none, map) := by
  induction segs generalizing map with
  | nil =>
    simp only [navigate, Option.some_bind] at h
    simp [nestedRemoveGo, mapRemove_absent h]
  | cons k ks ih =>
    cases hget : mapGet k map with
    | none => simp [nestedRemoveGo, hget]
    | some w =>
      cases w with
      | leaf sz e => simp [nestedRemoveGo, hget]
      | limitedMetadata data =>
        simp only [navigate, hget] at h
        have h2 := ih h
        simp [nestedRemoveGo, hget, h2, mapSet_self hget]

theorem nestedInsertGo_navigate_none {map : MapT} {segs : List Name}
    (key : Name) (v : Value) (limits : Limits)
    (h : navigate map segs = none) :
    ∃ k, (nestedInsertGo map segs key v limits).1 = .error (.missingKey k) ∨
      (nestedInsertGo map segs key v limits).1 = .error (.nonContainer k) := by
  induction segs generalizing map with
  | nil => simp [navigate] at h
  | cons k ks ih =>
    cases hget : mapGet k map with
    | none => exact ⟨k, .inl (by simp [nestedInsertGo, hget])⟩
    | some w =>
      cases w with
      | leaf sz e => exact ⟨k, .inr (by simp [nestedInsertGo, hget])⟩
      | limitedMetadata data =>
        simp only [navigate, hget] at h
        obtain ⟨k2, hk2⟩ := ih h
        cases hk2 with
        | inl h1 => exact ⟨k2, .inl (by simp [nestedInsertGo, hget, h1])⟩
        | inr h1 => exact ⟨k2, .inr (by simp [nestedInsertGo, hget, h1])⟩

/-! ### Atomic rejection -/

theorem insert_with_limits_error_state {m : Metadata} {key : Name}
    {v : Value} {limits : Limits} {e : Err}
    (h : (m.insert_with_limits key v limits).1 = .error e) :
    (m.insert_with_limits key v limits).2 = m := by
  unfold Metadata.insert_with_limits at h ⊢
  by_cases hcond : limits.max_len ≤ m.map.length ∧ mapContains key m.map = false
  · simp [if_pos hcond]
  · simp only [if_neg hcond] at h ⊢
    cases hc : check_size_limits key v limits with
    | error e2 => simp [hc]
    | ok u => simp [hc] at h

theorem nestedInsertGo_error_state {map : MapT} {segs : List Name}
    {key : Name} {v : Value} {limits : Limits} {e : Err}
    (h : (nestedInsertGo map segs key v limits).1 = .error e) :
    (nestedInsertGo map segs key v limits).2 = map := by
  induction segs generalizing map with
  | nil =>
    simp only [nestedInsertGo] at h ⊢
    cases hc : check_size_limits key v limits with
    | error e2 => simp [hc]
    | ok u =>
      simp only [hc] at h ⊢
      have h2 := insert_with_limits_error_state h
      simp [h2]
  | cons k ks ih =>
    cases hget : mapGet k map with
    | none => simp [nestedInsertGo, hget]
    | some w =>
      cases w with
      | leaf sz e2 => simp [nestedInsertGo, hget]
      | limitedMetadata data =>
        simp only [nestedInsertGo, hget] at h ⊢
        rw [ih h, mapSet_self hget]

/-! ### Round trip -/

theorem insert_with_limits_ok_get {m : Metadata} {key : Name} {v : Value}
    {limits : Limits} {prev : Option Value}
    (h : (m.insert_with_limits key v limits).1 = .ok prev) :
    (m.insert_with_limits key v limits).2.get key = some v := by
  unfold Metadata.insert_with_limits at h ⊢
  by_cases hcond : limits.max_len ≤ m.map.length ∧ mapContains key m.map = false
  · simp [if_pos hcond] at h
  · simp only [if_neg hcond] at h ⊢
    cases hc : check_size_limits key v limits with
    | error e2 => simp [hc] at h
    | ok u => simp [hc, Metadata.get, mapGet_mapInsert_self]

theorem nestedInsertGo_ok_get {map : MapT} {segs : List Name} {key : Name}
    {v : Value} {limits : Limits} {prev : Option Value}
    (h : (nestedInsertGo map segs key v limits).1 = .ok prev) :
    nestedGetGo (nestedInsertGo map segs key v limits).2 segs key = some v := by
  induction segs generalizing map with
  | nil =>
    simp only [nestedInsertGo] at h ⊢
    cases hc : check_size_limits key v limits with
    | error e2 => simp [hc] at h
    | ok u =>
      simp only [hc] at h ⊢
      have h2 := insert_with_limits_ok_get h
      simpa [Metadata.get, nestedGetGo] using h2
  | cons k ks ih =>
    cases hget : mapGet k map with
    | none => simp [nestedInsertGo, hget] at h
    | some w =>
      cases w with
      | leaf sz e2 => simp [nestedInsertGo, hget] at h
      | limitedMetadata data =>
        simp only [nestedInsertGo, hget] at h ⊢
        simp only [nestedGetGo, mapGet_mapSet_self _ hget]
        exact ih h

/-! ### Frame condition of nested removal -/

theorem nestedRemoveGo_removedAlong {map : MapT} {segs : List Name}
    {key : Name} {v : Value}
    (hwf : mapWF map = true) (h : (nestedRemoveGo map segs key).1 = some v) :
    RemovedAlong map (nestedRemoveGo map segs key).2 segs key := by
  induction segs generalizing map with
  | nil =>
    simp only [nestedRemoveGo] at h ⊢
    exact ⟨mapRemove_get_self hwf, mapRemove_length h,
      fun k2 hne => mapRemove_get_ne _ hne⟩
  | cons k ks ih =>
    cases hget : mapGet k map with
    | none => simp [nestedRemoveGo, hget] at h
    | some w =>
      cases w with
      | leaf sz e => simp [nestedRemoveGo, hget] at h
      | limitedMetadata data =>
        simp only [nestedRemoveGo, hget] at h ⊢
        have hwfd : mapWF data = true := by
          have h2 := wf_of_get hwf hget
          simpa [Value.wf] using h2
        exact ⟨mapSet_length _ _ _,
          fun k2 hne => mapGet_mapSet_ne _ _ hne,
          data, (nestedRemoveGo data ks key).2, hget,
          mapGet_mapSet_self _ hget, ih hwfd h⟩

/-! ### Path-resolution characterisation of nested_get -/

theorem resolvesTo_cons {map : MapT} {k : Name} {ps : List Name} {v : Value}
    (h : ResolvesTo map (k :: ps) v) (hne : ps ≠ []) :
    ∃ data, mapGet k map = some (.limitedMetadata data) ∧
      ResolvesTo data ps v := by
  cases h with
  | here h2 => exact absurd rfl hne
  | there h2 hres => exact ⟨_, h2, hres⟩

theorem nestedGetGo_iff_resolves {map : MapT} {segs : List Name}
    {key : Name} {v : Value} :
    nestedGetGo map segs key = some v ↔ ResolvesTo map (segs ++ [key]) v := by
  induction segs generalizing map with
  | nil =>
    constructor
    · intro h
      exact .here h
    · intro h
      cases h with
      | here h2 => exact h2
      | there h2 hres => cases hres
  | cons k ks ih =>
    constructor
    · intro h
      cases hget : mapGet k map with
      | none => simp [nestedGetGo, hget] at h
      | some w =>
        cases w with
        | leaf sz e => simp [nestedGetGo, hget] at h
        | limitedMetadata data =>
          simp only [nestedGetGo, hget] at h
          exact .there hget (ih.mp h)
    · intro h
      obtain ⟨data, h2, hres⟩ := resolvesTo_cons h (by simp)
      simp [nestedGetGo, h2, ih.mpr hres]

theorem check_size_limits_error {key : Name} {v : Value} {limits : Limits}
    {e : Err} (h : check_size_limits key v limits = .error e) :
    e = .entrySize limits.max_entry_byte_size (encodedSize key v) := by
  by_cases hgt : encodedSize key v > limits.max_entry_byte_size
  · simp only [check_size_limits, if_pos hgt] at h
    injection h with h
    exact h.symm
  · simp [check_size_limits, if_neg hgt] at h

theorem check_size_limits_ok {key : Name} {v : Value} {limits : Limits}
    (h : encodedSize key v ≤ limits.max_entry_byte_size) :
    check_size_limits key v limits = .ok () := by
  simp [check_size_limits, not_lt.mpr h]

/-! ## The claims -/

/-- C1 counterexample: the root container `{"a" ↦ leaf}` is at capacity
(`max_len = 1`) and the single-segment path `["a"]` names a key already
present at the root, yet `nested_insert_with_limits` fails with the
length-limit error: the root-scoped guard has no existing-key exemption. -/
theorem C1_counterexample :
    mapContains "a" [("a", Value.leaf 1 1)] = true ∧
    (Metadata.nested_insert_with_limits ⟨[("a", Value.leaf 1 1)]⟩ ["a"]
        (Value.leaf 1 1) ⟨1, 100⟩).1 = .error (.lengthLimit 1) :=
  ⟨rfl, rfl⟩

/-- C1 (amended): inserting at an already-present key via
`insert_with_limits` never fails with the length-limit error, regardless
of the entry count; but the root-scoped guard of
`nested_insert_with_limits` rejects every insertion (any path, even a
single-segment path naming an existing root key) with the length-limit
error whenever the root is at capacity. -/
theorem C1_replacement_exemption (m : Metadata) (key : Name) (v : Value)
    (limits : Limits) (path : List Name)
    (hkey : mapContains key m.map = true)
    (hcap : limits.max_len ≤ m.map.length) :
    (∀ mx, (m.insert_with_limits key v limits).1 ≠ .error (.lengthLimit mx)) ∧
    (m.nested_insert_with_limits path v limits).1 =
      .error (.lengthLimit limits.max_len) := by
  constructor
  · intro mx hcontra
    unfold Metadata.insert_with_limits at hcontra
    have hcond : ¬(limits.max_len ≤ m.map.length ∧
        mapContains key m.map = false) := by
      simp [hkey]
    simp only [if_neg hcond] at hcontra
    cases hc : check_size_limits key v limits with
    | error e =>
      simp only [hc] at hcontra
      injection hcontra with hcontra
      rw [check_size_limits_error hc] at hcontra
      cases hcontra
    | ok u => simp [hc] at hcontra
  · simp [Metadata.nested_insert_with_limits, if_pos hcap]

/-- C1 witness: the amended statement at the counterexample's input. -/
theorem C1_witness :
    ((⟨[("a", Value.leaf 1 1)]⟩ : Metadata).insert_with_limits "a"
        (Value.leaf 1 1) ⟨1, 100⟩).1 ≠ .error (.lengthLimit 1) ∧
    ((⟨[("a", Value.leaf 1 1)]⟩ : Metadata).nested_insert_with_limits ["a"]
        (Value.leaf 1 1) ⟨1, 100⟩).1 = .error (.lengthLimit 1) :=
  ⟨(C1_replacement_exemption ⟨[("a", Value.leaf 1 1)]⟩ "a" (Value.leaf 1 1)
      ⟨1, 100⟩ ["a"] rfl (by decide)).1 1,
   (C1_replacement_exemption ⟨[("a", Value.leaf 1 1)]⟩ "a" (Value.leaf 1 1)
      ⟨1, 100⟩ ["a"] rfl (by decide)).2⟩

/-- C2: when the root container is at or above `limits.max_len`, every
nested insertion along a path of length at least 2 is rejected with the
length-limit error carrying `limits.max_len`, based on the root's
occupancy alone (the guard never looks at the destination layer). -/
theorem C2_root_guard (m : Metadata) (path : List Name) (v : Value)
    (limits : Limits) (hcap : limits.max_len ≤ m.map.length)
    (_hlen : 2 ≤ path.length) :
    (m.nested_insert_with_limits path v limits).1 =
      .error (.lengthLimit limits.max_len) := by
  simp [Metadata.nested_insert_with_limits, if_pos hcap]

/-- C2 witness: a two-segment insertion into `{"a" ↦ empty container}`
at root capacity 1 is rejected by the root guard even though the
destination layer (the empty container) is empty. -/
theorem C2_witness :
    ((⟨[("a", Value.limitedMetadata [])]⟩ : Metadata).nested_insert_with_limits
        ["a", "b"] (Value.leaf 1 1) ⟨1, 100⟩).1 = .error (.lengthLimit 1) :=
  C2_root_guard ⟨[("a", Value.limitedMetadata [])]⟩ ["a", "b"]
    (Value.leaf 1 1) ⟨1, 100⟩ (by decide) (by decide)

/-- C3 counterexample: with an empty root and `max_len = 0` the root is at
capacity, and `nested_insert_with_limits` on the empty path returns the
length-limit error, not the empty-path error: the root length guard runs
before the empty-path check, contradicting the claimed order. -/
theorem C3_counterexample :
    (Metadata.nested_insert_with_limits ⟨[]⟩ [] (Value.leaf 1 1) ⟨0, 5⟩).1 =
        .error (.lengthLimit 0) ∧
    Err.lengthLimit 0 ≠ Err.emptyPath :=
  ⟨rfl, by decide⟩

/-- C3 (amended): `nested_insert_with_limits` on an empty path fails with
the empty-path error provided the root container is below
`limits.max_len`; the root length guard precedes the empty-path check, so
at capacity the length-limit error is returned instead. -/
theorem C3_empty_path (m1 m2 : Metadata) (v1 v2 : Value) (l1 l2 : Limits)
    (h1 : m1.map.length < l1.max_len) (h2 : l2.max_len ≤ m2.map.length) :
    (m1.nested_insert_with_limits [] v1 l1).1 = .error .emptyPath ∧
    (m2.nested_insert_with_limits [] v2 l2).1 =
      .error (.lengthLimit l2.max_len) := by
  constructor
  · simp [Metadata.nested_insert_with_limits, if_neg (not_le.mpr h1)]
  · simp [Metadata.nested_insert_with_limits, if_pos h2]

/-- C3 witness: the amended statement at concrete inputs (empty root,
below capacity with `max_len = 5` and at capacity with `max_len = 0`). -/
theorem C3_witness :
    (Metadata.nested_insert_with_limits ⟨[]⟩ [] (Value.leaf 1 1) ⟨5, 5⟩).1 =
        .error .emptyPath ∧
    (Metadata.nested_insert_with_limits ⟨[]⟩ [] (Value.leaf 1 1) ⟨0, 5⟩).1 =
        .error (.lengthLimit 0) :=
  C3_empty_path ⟨[]⟩ ⟨[]⟩ (Value.leaf 1 1) (Value.leaf 1 1) ⟨5, 5⟩ ⟨0, 5⟩
    (by decide) (by decide)

/-- C4: atomic rejection — whenever `insert_with_limits` or
`nested_insert_with_limits` returns an error of any kind, the post-state
of the metadata tree is exactly the pre-state (values and entry counts at
every layer unchanged, no partial mutation). -/
theorem C4_atomic_rejection (m1 : Metadata) (key : Name) (v1 : Value)
    (l1 : Limits) (e1 : Err) (m2 : Metadata) (path : List Name) (v2 : Value)
    (l2 : Limits) (e2 : Err)
    (h1 : (m1.insert_with_limits key v1 l1).1 = .error e1)
    (h2 : (m2.nested_insert_with_limits path v2 l2).1 = .error e2) :
    (m1.insert_with_limits key v1 l1).2 = m1 ∧
    (m2.nested_insert_with_limits path v2 l2).2 = m2 := by
  refine ⟨insert_with_limits_error_state h1, ?_⟩
  unfold Metadata.nested_insert_with_limits at h2 ⊢
  by_cases hcap : l2.max_len ≤ m2.map.length
  · simp [if_pos hcap]
  · simp only [if_neg hcap] at h2 ⊢
    cases hlast : path.getLast? with
    | none => simp
    | some key2 =>
      simp only [hlast] at h2 ⊢
      have h3 := nestedInsertGo_error_state h2
      simp [h3]

/-- C4 witness: a flat insert rejected by the length limit and a nested
insert rejected by the empty-path check both leave their containers
unchanged. -/
theorem C4_witness :
    ((⟨[("a", Value.leaf 1 1)]⟩ : Metadata).insert_with_limits "b"
        (Value.leaf 1 1) ⟨1, 100⟩).2 = ⟨[("a", Value.leaf 1 1)]⟩ ∧
    ((⟨[("c", Value.leaf 2 2)]⟩ : Metadata).nested_insert_with_limits []
        (Value.leaf 1 1) ⟨5, 5⟩).2 = ⟨[("c", Value.leaf 2 2)]⟩ :=
  C4_atomic_rejection ⟨[("a", Value.leaf 1 1)]⟩ "b" (Value.leaf 1 1)
    ⟨1, 100⟩ (.lengthLimit 1) ⟨[("c", Value.leaf 2 2)]⟩ [] (Value.leaf 1 1)
    ⟨5, 5⟩ .emptyPath rfl rfl

/-- C5: `nested_get path` returns `some v` exactly when the path is
non-empty, every non-last segment resolves in the current container to a
`limitedMetadata` value, and the last segment is present in the terminal
container with value `v` (`ResolvesTo`); in every other case (empty path,
missing or non-container intermediate segment, absent final key) it
returns `none`. By construction it signals no error and does not mutate
the container (it is a pure function of `m`). -/
theorem C5_nested_get_characterisation (m : Metadata) (path : List Name)
    (v : Value) :
    m.nested_get path = some v ↔ ResolvesTo m.map path v := by
  cases hlast : path.getLast? with
  | none =>
    obtain rfl := List.getLast?_eq_none_iff.mp hlast
    constructor
    · intro h
      simp [Metadata.nested_get] at h
    · intro h
      cases h
  | some key =>
    have hdecomp : path.dropLast ++ [key] = path :=
      List.dropLast_append_getLast? key hlast
    unfold Metadata.nested_get
    rw [hlast]
    conv_rhs => rw [← hdecomp]
    exact nestedGetGo_iff_resolves

/-- C6: in `insert_with_limits` the length check precedes the size check.
At capacity, a new key is rejected with the length-limit error carrying
`limits.max_len` even when the canonical entry encoding also exceeds
`limits.max_entry_byte_size`; a replacement of an existing key is exempt
from the length check but still fails the size check when oversized, and
succeeds when within the byte limit. -/
theorem C6_length_before_size (m : Metadata) (key : Name) (v : Value)
    (limits : Limits) (hcap : limits.max_len ≤ m.map.length) :
    (mapContains key m.map = false →
      (m.insert_with_limits key v limits).1 =
        .error (.lengthLimit limits.max_len)) ∧
    (mapContains key m.map = true →
      (limits.max_entry_byte_size < encodedSize key v →
        (m.insert_with_limits key v limits).1 =
          .error (.entrySize limits.max_entry_byte_size (encodedSize key v))) ∧
      (encodedSize key v ≤ limits.max_entry_byte_size →
        (m.insert_with_limits key v limits).1 = .ok (m.get key))) := by
  constructor
  · intro habs
    simp [Metadata.insert_with_limits, hcap, habs]
  · intro hpres
    have hcond : ¬(limits.max_len ≤ m.map.length ∧
        mapContains key m.map = false) := by
      simp [hpres]
    constructor
    · intro hbig
      simp [Metadata.insert_with_limits, if_neg hcond, check_size_limits,
        if_pos hbig]
    · intro hsmall
      simp [Metadata.insert_with_limits, if_neg hcond,
        check_size_limits_ok hsmall, Metadata.get]

/-- C6 witness: root `{"a" ↦ leaf}` at capacity 1 with byte limit 2 —
the fresh key `"b"` is rejected by the length limit although its entry
(4 bytes) also exceeds the byte limit; replacing `"a"` with an oversized
value fails the size check; replacing `"a"` with a small value succeeds. -/
theorem C6_witness :
    ((⟨[("a", Value.leaf 1 1)]⟩ : Metadata).insert_with_limits "b"
        (Value.leaf 1 2) ⟨1, 2⟩).1 = .error (.lengthLimit 1) ∧
    ((⟨[("a", Value.leaf 1 1)]⟩ : Metadata).insert_with_limits "a"
        (Value.leaf 1 9) ⟨1, 2⟩).1 = .error (.entrySize 2 11) ∧
    ((⟨[("a", Value.leaf 1 1)]⟩ : Metadata).insert_with_limits "a"
        (Value.leaf 1 0) ⟨1, 2⟩).1 = .ok (some (Value.leaf 1 1)) :=
  ⟨(C6_length_before_size ⟨[("a", Value.leaf 1 1)]⟩ "b" (Value.leaf 1 2)
      ⟨1, 2⟩ (by decide)).1 rfl,
   ((C6_length_before_size ⟨[("a", Value.leaf 1 1)]⟩ "a" (Value.leaf 1 9)
      ⟨1, 2⟩ (by decide)).2 rfl).1 (by decide),
   ((C6_length_before_size ⟨[("a", Value.leaf 1 1)]⟩ "a" (Value.leaf 1 0)
      ⟨1, 2⟩ (by decide)).2 rfl).2 (by decide)⟩

/-- C7: round trip — whenever `insert_with_limits key v limits` succeeds,
`get key` on the post-state returns exactly `v`; whenever
`nested_insert_with_limits path v limits` succeeds, `nested_get path` on
the post-state returns exactly `v`. -/
theorem C7_round_trip (m1 : Metadata) (key : Name) (v1 : Value)
    (l1 : Limits) (prev1 : Option Value) (m2 : Metadata) (path : List Name)
    (v2 : Value) (l2 : Limits) (prev2 : Option Value)
    (h1 : (m1.insert_with_limits key v1 l1).1 = .ok prev1)
    (h2 : (m2.nested_insert_with_limits path v2 l2).1 = .ok prev2) :
    (m1.insert_with_limits key v1 l1).2.get key = some v1 ∧
    (m2.nested_insert_with_limits path v2 l2).2.nested_get path = some v2 := by
  refine ⟨insert_with_limits_ok_get h1, ?_⟩
  unfold Metadata.nested_insert_with_limits at h2 ⊢
  by_cases hcap : l2.max_len ≤ m2.map.length
  · simp [if_pos hcap] at h2
  · simp only [if_neg hcap] at h2 ⊢
    cases hlast : path.getLast? with
    | none => simp [hlast] at h2
    | some key2 =>
      simp only [hlast] at h2 ⊢
      have h3 := nestedInsertGo_ok_get h2
      simp [Metadata.nested_get, hlast, h3]

/-- C7 witness: a flat insert of a leaf at `"a"` into the empty container
and a nested insert at path `["b"]`, each followed by the corresponding
lookup returning the inserted value. -/
theorem C7_witness :
    ((⟨[]⟩ : Metadata).insert_with_limits "a" (Value.leaf 1 1)
        ⟨5, 100⟩).2.get "a" = some (Value.leaf 1 1) ∧
    ((⟨[]⟩ : Metadata).nested_insert_with_limits ["b"] (Value.leaf 2 2)
        ⟨5, 100⟩).2.nested_get ["b"] = some (Value.leaf 2 2) :=
  C7_round_trip ⟨[]⟩ "a" (Value.leaf 1 1) ⟨5, 100⟩ none ⟨[]⟩ ["b"]
    (Value.leaf 2 2) ⟨5, 100⟩ none rfl rfl

/-- C8 counterexample: the path `["x"]` into the empty root has an absent
final key, so by the claim's own classification it is a "malformed or
non-existent" path; `nested_get` and `nested_remove` indeed return absent,
but `nested_insert_with_limits` on that path succeeds (`Ok(None)`) rather
than returning a `MissingIntermediateKey`/`NonContainerSegment` error. -/
theorem C8_counterexample :
    mapGet "x" ([] : MapT) = none ∧
    Metadata.nested_get ⟨[]⟩ ["x"] = none ∧
    (Metadata.nested_remove ⟨[]⟩ ["x"]).1 = none ∧
    (Metadata.nested_insert_with_limits ⟨[]⟩ ["x"] (Value.leaf 1 1)
        ⟨10, 100⟩).1 = .ok none :=
  ⟨rfl, rfl, rfl, rfl⟩

/-- C8 (amended): for a malformed path (a missing or non-container
intermediate segment), `nested_get` returns absent, `nested_remove`
returns absent and leaves the container unchanged, and — provided the
root is below capacity, so the root guard does not preempt —
`nested_insert_with_limits` returns a `MissingIntermediateKey` or
`NonContainerSegment` error; for a well-navigated path whose final key is
absent, `nested_get` and `nested_remove` likewise return absent with no
mutation (removal of an absent path is a no-op), while insertion there is
an ordinary insert, not one of these errors. -/
theorem C8_absence_vs_error (m : Metadata) (path : List Name) (key : Name)
    (v : Value) (limits : Limits)
    (hkey : path.getLast? = some key)
    (hcap : m.map.length < limits.max_len) :
    (navigate m.map path.dropLast = none →
      m.nested_get path = none ∧
      m.nested_remove path = (none, m) ∧
      ∃ k, (m.nested_insert_with_limits path v limits).1 =
          .error (.missingKey k) ∨
        (m.nested_insert_with_limits path v limits).1 =
          .error (.nonContainer k)) ∧
    (∀ map2, navigate m.map path.dropLast = some map2 →
      mapGet key map2 = none →
      m.nested_get path = none ∧ m.nested_remove path = (none, m)) := by
  have hget_eq : ∀ m2 : MapT, Metadata.nested_get ⟨m2⟩ path =
      (navigate m2 path.dropLast).bind fun mp => mapGet key mp := by
    intro m2
    unfold Metadata.nested_get
    rw [hkey]
    exact nestedGetGo_eq_navigate m2 path.dropLast key
  have hrem_eq : ∀ h2 : ((navigate m.map path.dropLast).bind
      fun mp => mapGet key mp) = none, m.nested_remove path = (none, m) := by
    intro h2
    unfold Metadata.nested_remove
    rw [hkey]
    simp [nestedRemoveGo_none h2]
  constructor
  · intro hnav
    have hbind : ((navigate m.map path.dropLast).bind
        fun mp => mapGet key mp) = none := by
      rw [hnav]
      rfl
    refine ⟨?_, hrem_eq hbind, ?_⟩
    · rw [show m = Metadata.mk m.map from rfl, hget_eq, hnav]
      rfl
    · obtain ⟨k, hk⟩ :=
        nestedInsertGo_navigate_none key v limits hnav
      refine ⟨k, ?_⟩
      unfold Metadata.nested_insert_with_limits
      rw [if_neg (not_le.mpr hcap), hkey]
      exact hk
  · intro map2 hnav hget
    have hbind : ((navigate m.map path.dropLast).bind
        fun mp => mapGet key mp) = none := by
      rw [hnav]
      simpa using hget
    refine ⟨?_, hrem_eq hbind⟩
    rw [show m = Metadata.mk m.map from rfl, hget_eq, hbind]

/-- C8 witness: root `{"0" ↦ leaf}` below capacity; the path `["0","2"]`
is malformed (segment `"0"` is a non-container leaf): `nested_get` is
absent, `nested_remove` is an unchanged no-op, and the nested insert
errors with a navigation error. -/
theorem C8_witness :
    Metadata.nested_get ⟨[("0", Value.leaf 1 1)]⟩ ["0", "2"] = none ∧
    Metadata.nested_remove ⟨[("0", Value.leaf 1 1)]⟩ ["0", "2"] =
      (none, ⟨[("0", Value.leaf 1 1)]⟩) ∧
    ∃ k, (Metadata.nested_insert_with_limits ⟨[("0", Value.leaf 1 1)]⟩
        ["0", "2"] (Value.leaf 1 1) ⟨5, 100⟩).1 = .error (.missingKey k) ∨
      (Metadata.nested_insert_with_limits ⟨[("0", Value.leaf 1 1)]⟩
        ["0", "2"] (Value.leaf 1 1) ⟨5, 100⟩).1 = .error (.nonContainer k) :=
  (C8_absence_vs_error ⟨[("0", Value.leaf 1 1)]⟩ ["0", "2"] "2"
    (Value.leaf 1 1) ⟨5, 100⟩ rfl (by decide)).1 rfl

theorem mapNestedLen_eq_sum (l : MapT) :
    mapNestedLen l = (l.map fun e => 1 + e.2.len).sum := by
  induction l with
  | nil => rfl
  | cons e rest ih =>
    obtain ⟨k, v⟩ := e
    simp [mapNestedLen, ih]

/-- C9: `nested_len` is the sum, over the direct entries of the map, of
`1 + value.len()`; and for an entry whose value is itself a container,
the size metric recurses through that container's own `nested_len`
(concretely, the container variant's metric is `nested_len + 1`,
pinned by the in-repo test expecting `nested_len = 6`). -/
theorem C9_nested_len (m : Metadata) :
    m.nested_len = (m.map.map fun e => 1 + e.2.len).sum ∧
    ∀ data : MapT,
      (Value.limitedMetadata data).len = Metadata.nested_len ⟨data⟩ + 1 :=
  ⟨mapNestedLen_eq_sum m.map, fun _ => rfl⟩

/-- C10: when `nested_remove path` returns a value, the post-state tree is
the pre-state tree with exactly that single leaf entry gone
(`RemovedAlong`): at the terminal layer the final key is absent and every
other entry is unchanged, and at each intermediate layer along the path
the entry count is preserved, every entry off the path is unchanged, and
the intermediate container on the path is still present (an emptied
container is not pruned). Stated for well-formed trees (`mapWF`: the
duplicate-key-free states guaranteed by `BTreeMap`, spec invariant I1). -/
theorem C10_nested_remove_frame (m : Metadata) (path : List Name)
    (key : Name) (v : Value)
    (hwf : mapWF m.map = true)
    (hkey : path.getLast? = some key)
    (h : (m.nested_remove path).1 = some v) :
    RemovedAlong m.map (m.nested_remove path).2.map path.dropLast key := by
  unfold Metadata.nested_remove at h ⊢
  rw [hkey] at h ⊢
  exact nestedRemoveGo_removedAlong hwf h

/-- C10 witness: removing the leaf at `["0", "1", "2"]` from the
three-deep chain tree satisfies the frame condition along `["0", "1"]`. -/
theorem C10_witness :
    RemovedAlong
      [("0", Value.limitedMetadata
        [("1", Value.limitedMetadata [("2", Value.leaf 1 12)])])]
      ((Metadata.nested_remove
        ⟨[("0", Value.limitedMetadata
          [("1", Value.limitedMetadata [("2", Value.leaf 1 12)])])]⟩
        ["0", "1", "2"]).2.map)
      ["0", "1"] "2" :=
  C10_nested_remove_frame
    ⟨[("0", Value.limitedMetadata
      [("1", Value.limitedMetadata [("2", Value.leaf 1 12)])])]⟩
    ["0", "1", "2"] "2" (Value.leaf 1 12) rfl rfl rfl

end IrohaMetadata
